import Mathlib

/-!
Verification development for the fdb-joshua coordination layer.

This file gives a shallow embedding of the transactional core of
`joshua/joshua_model.py` (ensemble registry, run claim protocol, result
sink, blob store), of the agent-side helpers in `joshua/joshua_agent.py`
(archive-path filtering, weighted ensemble pick), and of the pool manager
computation in `Docker/start_agents.py`.

Modelling conventions:
* The relevant keys of the FoundationDB keyspace are packaged into the
  record `JState`; one committed transaction is one Lean function from
  `JState` to `JState` (wrapped in `Option`, `none` meaning the transaction
  raised and did not commit).
* Counters are little-endian u64 under atomic add and are modelled as
  `Nat` with explicit reduction mod `2 ^ 64`.  Snapshot reads in the same
  transaction see the transaction's own writes (FDB read-your-writes).
* Wall-clock times are abstract `Nat` timestamps; the `format_datetime` /
  `format_timedelta` string codecs are kept abstract (a timestamp `t`
  stands for its formatted string).
* Python floats are modelled by `ℚ`; `int(...)` truncation toward zero and
  banker's rounding of `round(...)` are modelled explicitly.
-/

/-- Packed property values (`fdb.tuple.pack`ed primitives). -/
inductive PVal where
  | nat (n : Nat)
  | int (i : Int)
  | str (s : String)
deriving DecidableEq, Repr

/-- One row in `results/pass/<EID>` or `results/fail/<EID>`.  The
versionstamped key order is the list order. -/
structure ResultRow where
  code : Int
  host : String
  seed : Nat
  output : String
deriving DecidableEq, Repr

/-- The keys of the joshua keyspace used by the registry, the claim
protocol and the result sink.  `index` is the `/ensembles/active/<EID>`
(or, symmetrically, sanity) index; `incomplete`, `beganAt`, `hostnameOf`
and `heartbeat` are the pieces of `/ensembles/incomplete/<EID>`. -/
structure JState where
  all : String → Bool
  props : String → String → Option PVal
  counts : String → String → Nat
  index : String → Bool
  incomplete : String → Nat → Option Nat
  beganAt : String → Nat → Option Nat
  hostnameOf : String → Nat → Option String
  heartbeat : String → Nat → Option Nat
  resultsPass : String → List ResultRow
  resultsFail : String → List ResultRow
  changes : Nat

/-- Point update of a one-key map. -/
def upd1 {γ : Type} (f : String → γ) (a : String) (v : γ) : String → γ :=
  fun x => if x = a then v else f x

/-- Point update of a two-key map. -/
def upd2 {β γ : Type} [DecidableEq β] (f : String → β → γ) (a : String) (b : β)
    (v : γ) : String → β → γ :=
  fun x y => if x = a ∧ y = b then v else f x y

/-- Range-delete of everything under one ensemble in a two-key map. -/
def clearSub {β γ : Type} (f : String → β → Option γ) (a : String) :
    String → β → Option γ :=
  fun x y => if x = a then none else f x y

/-- Counters are 8-byte little-endian words under atomic add. -/
def U64MOD : Nat := 18446744073709551616

/-- `_add`: atomic add of `v` to `/all/<EID>/count/<ctr>` (wraps mod 2^64). -/
def add_count (s : JState) (eid ctr : String) (v : Nat) : JState :=
  { s with counts := upd2 s.counts eid ctr ((s.counts eid ctr + v) % U64MOD) }

/-- `_increment`: atomic add of 1. -/
def increment_count (s : JState) (eid ctr : String) : JState :=
  add_count s eid ctr 1

/-- Write one property key under `/all/<EID>/properties/<k>`. -/
def set_prop (s : JState) (eid k : String) (v : PVal) : JState :=
  { s with props := upd2 s.props eid k (some v) }

/-- `_create_ensemble` (the write transaction of `create_ensemble`):
idempotent on an existing sentinel, otherwise writes the sentinel, all
given properties, the index entry, and bumps the change counter. -/
def create_ensemble (s : JState) (eid : String)
    (properties : List (String × PVal)) : JState :=
  if s.all eid then s
  else
    let s1 : JState := { s with all := upd1 s.all eid true }
    let s2 := properties.foldl (fun t kv => set_prop t eid kv.1 kv.2) s1
    { s2 with index := upd1 s2.index eid true, changes := s2.changes + 1 }

/-- `_stop_ensemble`: raises (`none`) when the sentinel is absent; when the
index entry is still present, writes `stopped = now` and
`runtime = now - submitted` (parsing `submitted` raises on a non-timestamp
value); then unconditionally deletes the index entry and the whole
`/incomplete/<EID>` sub-range and bumps the change counter. -/
def stop_ensemble (s : JState) (eid : String) (now : Nat) : Option JState :=
  if s.all eid = false then none
  else
    let s1! : Option JState :=
      if s.index eid then
        match s.props eid "submitted" with
        | some (PVal.nat sub) =>
            some (set_prop (set_prop s eid "stopped" (PVal.nat now)) eid
              "runtime" (PVal.int ((now : Int) - (sub : Int))))
        | none =>
            some (set_prop (set_prop s eid "stopped" (PVal.nat now)) eid
              "runtime" (PVal.int 0))
        | some _ => none
      else some s
    match s1! with
    | none => none
    | some s1 =>
        some { s1 with
          index := upd1 s1.index eid false,
          incomplete := clearSub s1.incomplete eid,
          beganAt := clearSub s1.beganAt eid,
          hostnameOf := clearSub s1.hostnameOf eid,
          heartbeat := clearSub s1.heartbeat eid,
          changes := s1.changes + 1 }

/-- `resume_ensemble`: raises when the sentinel is absent; re-inserts a
missing index entry (returning `true`), otherwise a no-op returning
`false`. -/
def resume_ensemble (s : JState) (eid : String) : Option (Bool × JState) :=
  if s.all eid = false then none
  else if s.index eid = false then
    some (true, { s with index := upd1 s.index eid true, changes := s.changes + 1 })
  else some (false, s)

/-- `try_starting_test`: the claim transaction.  `iid` is this process's
`instanceid`, `host` the value of `get_hostname()`, `now` the wall clock. -/
def try_starting_test (s : JState) (eid : String) (seed : Nat) (iid : Nat)
    (host : String) (now : Nat) : Bool × JState :=
  if s.index eid = false then (false, s)
  else
    match s.incomplete eid seed with
    | some owner => (decide (owner = iid), s)
    | none =>
        let s1 := increment_count s eid "started"
        (true, { s1 with
          incomplete := upd2 s1.incomplete eid seed (some iid),
          beganAt := upd2 s1.beganAt eid seed (some now),
          hostnameOf := upd2 s1.hostnameOf eid seed (some host),
          heartbeat := upd2 s1.heartbeat eid seed (some now) })

/-- The tail of `_insert_results` after the pass/fail branch: the
`max_runs` check against the snapshot `ended` counter, the `duration`
atomic add, and the versionstamped result-row append (all still inside
the same transaction). -/
def insert_results_finish (s4 : JState) (isFail : Bool) (eid : String) (seed : Nat)
    (result_code : Int) (output host : String) (now : Nat)
    (max_runs duration : Nat) : Option (Bool × JState) :=
  match (if 0 < max_runs ∧ max_runs ≤ s4.counts eid "ended" then
          stop_ensemble s4 eid now else some s4) with
  | none => none
  | some s5 =>
      let s6 := if duration ≠ 0 then add_count s5 eid "duration" duration else s5
      let row : ResultRow :=
        { code := result_code, host := host, seed := seed, output := output }
      let s7 :=
        if isFail then
          { s6 with resultsFail := upd1 s6.resultsFail eid (s6.resultsFail eid ++ [row]) }
        else
          { s6 with resultsPass := upd1 s6.resultsPass eid (s6.resultsPass eid ++ [row]) }
      some (true, s7)

/-- `_insert_results`: the result-sink transaction.  Returns the committed
boolean result and state, or `none` when the transaction raised.  Snapshot
counter reads occur after the atomic increments and therefore see them
(read-your-writes). -/
def insert_results (s : JState) (eid : String) (seed : Nat) (result_code : Int)
    (output : String) (host : String) (now : Nat)
    (fail_fast max_runs duration : Nat) : Option (Bool × JState) :=
  if s.index eid = false then some (false, s)
  else if (s.incomplete eid seed).isNone then some (false, s)
  else
    let s1 : JState := { s with
      incomplete := upd2 s.incomplete eid seed none,
      beganAt := upd2 s.beganAt eid seed none,
      hostnameOf := upd2 s.hostnameOf eid seed none,
      heartbeat := upd2 s.heartbeat eid seed none }
    let s2 := increment_count s1 eid "ended"
    if result_code ≠ 0 then
      let s3 := increment_count s2 eid "fail"
      if 0 < fail_fast ∧ fail_fast ≤ s3.counts eid "fail" then
        match stop_ensemble s3 eid now with
        | none => none
        | some t =>
            insert_results_finish t true eid seed result_code output host now
              max_runs duration
      else
        insert_results_finish s3 true eid seed result_code output host now
          max_runs duration
    else
      insert_results_finish (increment_count s2 eid "pass") false eid seed
        result_code output host now max_runs duration

/-- The registry and result operations of the model, as a trace alphabet. -/
inductive JOp where
  | create (eid : String) (properties : List (String × PVal))
  | stop (eid : String) (now : Nat)
  | resume (eid : String)
  | insert (eid : String) (seed : Nat) (code : Int) (output host : String)
      (now : Nat) (fail_fast max_runs duration : Nat)

/-- One operation as a committed transaction (`none` = raised, nothing
committed). -/
def jstep (s : JState) : JOp → Option JState
  | JOp.create eid ps => some (create_ensemble s eid ps)
  | JOp.stop eid now => stop_ensemble s eid now
  | JOp.resume eid => (resume_ensemble s eid).map (fun r => r.2)
  | JOp.insert eid seed code output host now ff mr d =>
      (insert_results s eid seed code output host now ff mr d).map (fun r => r.2)

/-- Run a trace; an operation that raises commits nothing. -/
def run_ops (s : JState) (ops : List JOp) : JState :=
  ops.foldl (fun t op => (jstep t op).getD t) s

/-- The empty keyspace. -/
def init_state : JState where
  all := fun _ => false
  props := fun _ _ => none
  counts := fun _ _ => 0
  index := fun _ => false
  incomplete := fun _ _ => none
  beganAt := fun _ _ => none
  hostnameOf := fun _ _ => none
  heartbeat := fun _ _ => none
  resultsPass := fun _ => []
  resultsFail := fun _ => []
  changes := 0

/-- The `submitted` property, if present, parses as a timestamp (true of
every state written by this model's `create_ensemble`/`stop_ensemble`). -/
def submitted_ok (s : JState) (eid : String) : Bool :=
  match s.props eid "submitted" with
  | none => true
  | some (PVal.nat _) => true
  | some _ => false

/-- An operation is a `resume`. -/
def is_resume : JOp → Bool
  | JOp.resume _ => true
  | _ => false

/-- A `create` operation does not carry a user-supplied `stopped`
property (other operations: vacuously true). -/
def create_props_clean : JOp → Bool
  | JOp.create _ ps => ps.all (fun kv => kv.1 ≠ "stopped")
  | _ => true

/-- Invariant tying `stopped` to the index: whenever `stopped` is written
the sentinel exists and the index entry is gone. -/
def StoppedInv (s : JState) : Prop :=
  ∀ e, (s.props e "stopped").isSome → s.all e = true ∧ s.index e = false

/-- A sample state with one live ensemble `E1` and one claimed seed 5. -/
def sample_live : JState :=
  { init_state with
    all := fun e => e = "E1"
    index := fun e => e = "E1"
    props := fun e k => if e = "E1" ∧ k = "submitted" then some (PVal.nat 2) else none
    incomplete := fun e n => if e = "E1" ∧ n = 5 then some 77 else none
    heartbeat := fun e n => if e = "E1" ∧ n = 5 then some 3 else none }

/-- A state with `stopped` already set for `E` and the index entry gone
(the situation right after a stop transaction). -/
def sample_stopped : JState :=
  { init_state with
    all := fun e => e = "E"
    props := fun e k => if e = "E" ∧ k = "stopped" then some (PVal.nat 5) else none }

/-- Trace: create `E`, then stop it at time 5. -/
def c5_trace1 : List JOp :=
  [JOp.create "E" [("submitted", PVal.nat 0)], JOp.stop "E" 5]

/-- Trace: create, stop at 5, resume, stop again at 9. -/
def c5_trace2 : List JOp :=
  c5_trace1 ++ [JOp.resume "E", JOp.stop "E" 9]

/-- Payload cap per blob key (bytes). -/
def BLOB_KEY_LIMIT : Nat := 8192

/-- Write cap per blob transaction (bytes). -/
def BLOB_TRANSACTION_LIMIT : Nat := 131072

/-- Byte strings. -/
abbrev Bytes := List Nat

/-- A blob subspace: key/value pairs in ascending key order (the order a
range scan returns them). -/
abbrev BlobStore := List (Nat × Bytes)

/-- A single key write on an ascending association list. -/
def set_blob_key : BlobStore → Nat → Bytes → BlobStore
  | [], k, v => [(k, v)]
  | (k1, v1) :: rest, k, v =>
    if k < k1 then (k, v) :: (k1, v1) :: rest
    else if k = k1 then (k, v) :: rest
    else (k1, v1) :: set_blob_key rest k v

/-- The write loop of `_insert_blobpart`: for `rel` stepping by
`BLOB_KEY_LIMIT` below `m`, write `data[rel : rel + BLOB_KEY_LIMIT]` at
key `offset + rel`. -/
def insert_blobpart_go (st : BlobStore) (offset : Nat) (data : Bytes)
    (rel m : Nat) : BlobStore :=
  if h : rel < m then
    insert_blobpart_go
      (set_blob_key st (offset + rel) ((data.drop rel).take BLOB_KEY_LIMIT))
      offset data (rel + BLOB_KEY_LIMIT) m
  else st
termination_by m - rel
decreasing_by
  have hk : 0 < BLOB_KEY_LIMIT := by decide
  omega

/-- `_insert_blobpart`: one transaction writing at most
`BLOB_TRANSACTION_LIMIT` bytes as `BLOB_KEY_LIMIT`-sized keys. -/
def insert_blobpart (st : BlobStore) (offset : Nat) (data : Bytes) : BlobStore :=
  insert_blobpart_go st offset data 0 (min BLOB_TRANSACTION_LIMIT data.length)

/-- `_insert_blob`: stream the data in `BLOB_TRANSACTION_LIMIT`-sized
reads, writing each through `_insert_blobpart` and advancing the byte
offset by the amount read. -/
def insert_blob (st : BlobStore) (offset : Nat) (data : Bytes) : BlobStore :=
  if h : data = [] then st
  else
    insert_blob
      (insert_blobpart st offset (data.take BLOB_TRANSACTION_LIMIT))
      (offset + (data.take BLOB_TRANSACTION_LIMIT).length)
      (data.drop BLOB_TRANSACTION_LIMIT)
termination_by data.length
decreasing_by
  have hb : 0 < BLOB_TRANSACTION_LIMIT := by decide
  have hd : 0 < data.length := List.length_pos.mpr h
  simp only [List.length_drop]
  omega

/-- Ascending range scan of the keys in `[lo, hi)`. -/
def range_scan (st : BlobStore) (lo hi : Nat) : BlobStore :=
  st.filter (fun kv => decide (lo ≤ kv.1) && decide (kv.1 < hi))

/-- The read loop of `_read_blobpart`: walk the scanned key/value pairs,
asserting each key equals the running offset (`none` = assertion failure),
accumulating values and stopping after an empty value. -/
def read_blobpart_aux : BlobStore → Nat → Option (List Bytes)
  | [], _ => some []
  | (k, v) :: rest, offset =>
    if k ≠ offset then none
    else if v.isEmpty then some [v]
    else
      match read_blobpart_aux rest (offset + v.length) with
      | none => none
      | some tl => some (v :: tl)

/-- `_read_blobpart`: one range scan of `[offset, offset +
BLOB_TRANSACTION_LIMIT)`, values joined. -/
def read_blobpart (st : BlobStore) (offset : Nat) : Option Bytes :=
  (read_blobpart_aux (range_scan st offset (offset + BLOB_TRANSACTION_LIMIT))
    offset).map List.flatten

/-- `_read_blob`: repeat `_read_blobpart` until an empty read, returning
the accumulated bytes.  `fuel` bounds the iteration count (the loop needs
one iteration per non-empty read plus a final empty one). -/
def read_blob_loop : Nat → BlobStore → Nat → Option Bytes
  | 0, _, _ => none
  | fuel + 1, st, offset =>
    match read_blobpart st offset with
    | none => none
    | some data =>
      if data.isEmpty then some []
      else
        match read_blob_loop fuel st (offset + data.length) with
        | none => none
        | some rest => some (data ++ rest)

/-- The store `_insert_blob` produces from a byte offset: consecutive
`BLOB_KEY_LIMIT`-sized chunks keyed by byte offset. -/
def blob_chunks (offset : Nat) (data : Bytes) : BlobStore :=
  if h : data = [] then []
  else
    (offset, data.take BLOB_KEY_LIMIT)
      :: blob_chunks (offset + BLOB_KEY_LIMIT) (data.drop BLOB_KEY_LIMIT)
termination_by data.length
decreasing_by
  have hk : 0 < BLOB_KEY_LIMIT := by decide
  have hd : 0 < data.length := List.length_pos.mpr h
  simp only [List.length_drop]
  omega

/-- The derived `remaining` field of the ensemble listing read path
(`get_active_ensembles`).  The categorical strings of the source are
constructors; a computed timedelta is `time` (the literal string "0" of
the stopped row is `zero`, distinct from a computed zero duration). -/
inductive Remaining where
  | zero
  | noMax
  | stopping
  | notStarted
  | oldVersion
  | time (q : ℚ)
deriving DecidableEq

/-- The per-record `runtime`/`remaining` derivation of
`get_active_ensembles` (read path only).  Times are seconds as rationals;
the `format_timedelta`/`load_timedelta` string codecs are abstracted.
`none` models the ZeroDivisionError raised when a present `ended` counter
is zero in the formula branch. -/
def derive_remaining (now : ℚ) (submitted runtime0 stopped : Option ℚ)
    (ended maxRuns : Option Int) : Option Remaining :=
  let runtime : Option ℚ :=
    match runtime0, submitted with
    | none, some sub => some (now - sub)
    | r, _ => r
  match stopped with
  | some _ => some Remaining.zero
  | none =>
    match runtime with
    | some rt =>
      match ended with
      | some jobsDone =>
        match maxRuns with
        | none => some Remaining.noMax
        | some mr =>
          if mr < jobsDone then some Remaining.stopping
          else if jobsDone = 0 then none
          else some (Remaining.time (rt * ((mr : ℚ) - (jobsDone : ℚ)) / (jobsDone : ℚ)))
      | none => some Remaining.notStarted
    | none => some Remaining.oldVersion

/-- Attribute lookup in a JoshuaMessage attribute list (Python dict
access; `none` models a KeyError). -/
def lookupAttr (msg : List (String × String)) (k : String) : Option String :=
  (msg.find? (fun kv => kv.1 == k)).map (fun kv => kv.2)

/-- The try-block of `tail_results` for one record whose text is a
`JoshuaMessage`: resolve `value_in_blob` markers through the
large-results blob store (`largeV1` the legacy layout keyed by blob key
only, `largeV2` the EID-prefixed layout), raising (`Except.error`) on a
missing `BlobKey` or an unknown `BlobVersion`. -/
def tail_resolve_message (largeV1 largeV2 : String → String)
    (msg : List (String × String)) (newItem : String) : Except String String :=
  if lookupAttr msg "Message" = some "value_in_blob" then
    match lookupAttr msg "BlobKey" with
    | none => Except.error "KeyError: BlobKey"
    | some key =>
        let blobVersion := (lookupAttr msg "BlobVersion").getD "1"
        if blobVersion = "1" then Except.ok (largeV1 key)
        else if blobVersion = "2" then Except.ok (largeV2 key)
        else Except.error ("Unknown BlobVersion " ++ blobVersion)
  else Except.ok newItem

/-- What `tail_results` yields for one message record: the resolved text
on success; on any exception the parse error is surfaced (traceback
printed) and the record's own text is yielded anyway. -/
def tail_yield_for_message (largeV1 largeV2 : String → String)
    (msg : List (String × String)) (newItem : String) : List String :=
  match tail_resolve_message largeV1 largeV2 msg newItem with
  | Except.ok s => [s]
  | Except.error _ => [newItem]

/-- The unknown-BlobVersion marker used as C7's concrete record. -/
def c7_msg : List (String × String) :=
  [("Message", "value_in_blob"), ("BlobKey", "7"), ("BlobVersion", "3")]

/-- Python `int(...)` on a float: truncation toward zero. -/
def pyInt (q : ℚ) : Int := if 0 ≤ q then Int.floor q else Int.ceil q

/-- Python `round(...)` on a float: round half to even. -/
def pyRound (q : ℚ) : Int :=
  let f := Int.floor q
  let r := q - (f : ℚ)
  if r < 1 / 2 then f
  else if 1 / 2 < r then f + 1
  else if f % 2 = 0 then f else f + 1

/-- `determine_agents_needed` from `Docker/start_agents.py`; `load` is the
1-minute load average, `growth_rate` the damping percentage (floats
modelled as rationals). -/
def determine_agents_needed (growth_rate : ℚ)
    (current_agents max_agents free_cpus total_cpus : Int) (load : ℚ) : Int :=
  let cpus_used : Int := pyInt (load + 4 / 5)
  let available_cpus : Int := total_cpus - cpus_used - free_cpus
  let agents_needed : Int :=
    if 0 < available_cpus then min (max_agents - current_agents) available_cpus
    else max (-current_agents) available_cpus
  if agents_needed ≤ pyInt (100 / growth_rate) then agents_needed
  else pyRound ((agents_needed : ℚ) * growth_rate / 100)

/-- Modelled from the spec's words for C8: the same delta computation but
with the damping keyed on the absolute value of the delta, as the claim
states it.  For comparison with `determine_agents_needed`. -/
def claim_agents_delta (growth_rate : ℚ)
    (current_agents max_agents free_cpus total_cpus : Int) (load : ℚ) : Int :=
  let avail : Int := total_cpus - pyInt (load + 4 / 5) - free_cpus
  let delta : Int :=
    if 0 < avail then min (max_agents - current_agents) avail
    else max (-current_agents) avail
  if 100 / growth_rate < |(delta : ℚ)| then pyRound ((delta : ℚ) * growth_rate / 100)
  else delta

/-- POSIX `os.path.normpath`, as called by `check_archive_path`. -/
def normpath (path : String) : String :=
  if path = "" then "."
  else
    let initialSlashes : Nat :=
      if path.startsWith "/" then
        if path.startsWith "//" ∧ ¬ path.startsWith "///" then 2 else 1
      else 0
    let comps := path.splitOn "/"
    let newComps : List String := comps.foldl (fun acc comp =>
      if comp = "" ∨ comp = "." then acc
      else if comp ≠ ".." ∨ (initialSlashes = 0 ∧ acc = [])
          ∨ (acc ≠ [] ∧ acc.getLast? = some "..") then acc ++ [comp]
      else if acc ≠ [] then acc.dropLast
      else acc) []
    let joined := String.intercalate "/" newComps
    let p := String.mk (List.replicate initialSlashes '/') ++ joined
    if p = "" then "." else p

/-- `check_archive_path` from `joshua_agent.py`. -/
def check_archive_path (name : String) : Bool :=
  let path := normpath name
  if path.startsWith "/" then false
  else if path.startsWith ".." then false
  else true

/-- The member filter applied by `ensure_state` before `extractall`
(member names only). -/
def extracted_members (members : List String) : List String :=
  members.filter check_archive_path

/-- `get_ensemble_mean_durations`: 1.0 for unstarted ensembles, otherwise
the mean run duration bounded below by 1.0. -/
def mean_duration (duration ended : Nat) : ℚ :=
  if ended = 0 then 1 else max 1 ((duration : ℚ) / (ended : ℚ))

/-- `get_ensemble_priorities`: the priority counter (0 meaning the
default 100) as a fraction of 100. -/
def ensemble_priority (priority : Nat) : ℚ :=
  (if priority = 0 then (100 : ℚ) else (priority : ℚ)) / 100

/-- The weighted buckets of the agent main loop: each candidate ensemble
weighted by `priority / mean_duration`, from per-ensemble counters
`(duration, ended, priority)`. -/
def make_buckets (counters : String → Nat × Nat × Nat) (ensembles : List String) :
    List (String × ℚ) :=
  ensembles.map (fun e =>
    (e, ensemble_priority (counters e).2.2
          / mean_duration (counters e).1 (counters e).2.1))

/-- The accumulating walk of the agent's weighted pick: the first
ensemble whose cumulative weight reaches the drawn value. -/
def pick_ensemble : List (String × ℚ) → ℚ → ℚ → Option String
  | [], _, _ => none
  | (e, w) :: rest, soFar, choice =>
      if choice ≤ soFar + w then some e else pick_ensemble rest (soFar + w) choice

/-- C2: characterization of `try_starting_test`: false with no change when
the index entry is absent; false with no change when another agent's
instance id holds the incomplete entry; true with no change when this
agent already holds it; otherwise it increments `started` (u64 atomic
add), claims the seed, writes `began_at`, `hostname` and the heartbeat,
and returns true, all in one transaction. -/
theorem try_starting_test_spec (s : JState) (eid : String) (seed iid : Nat)
    (host : String) (now : Nat) :
    (s.index eid = false → try_starting_test s eid seed iid host now = (false, s)) ∧
    (∀ owner, s.index eid = true → s.incomplete eid seed = some owner → owner ≠ iid →
        try_starting_test s eid seed iid host now = (false, s)) ∧
    (s.index eid = true → s.incomplete eid seed = some iid →
        try_starting_test s eid seed iid host now = (true, s)) ∧
    (s.index eid = true → s.incomplete eid seed = none →
        (try_starting_test s eid seed iid host now).1 = true ∧
        (try_starting_test s eid seed iid host now).2.counts eid "started"
            = (s.counts eid "started" + 1) % U64MOD ∧
        (try_starting_test s eid seed iid host now).2.incomplete eid seed = some iid ∧
        (try_starting_test s eid seed iid host now).2.beganAt eid seed = some now ∧
        (try_starting_test s eid seed iid host now).2.hostnameOf eid seed = some host ∧
        (try_starting_test s eid seed iid host now).2.heartbeat eid seed = some now) := by
  refine ⟨?_, ?_, ?_, ?_⟩
  · intro h
    simp [try_starting_test, h]
  · intro owner h1 h2 h3
    simp [try_starting_test, h1, h2, h3]
  · intro h1 h2
    simp [try_starting_test, h1, h2]
  · intro h1 h2
    simp [try_starting_test, h1, h2, increment_count, add_count, upd2]

/-- Witness for `try_starting_test_spec` at concrete states. -/
theorem try_starting_test_spec_witness :
    try_starting_test sample_live "E0" 5 77 "h" 9 = (false, sample_live) ∧
    try_starting_test sample_live "E1" 5 99 "h" 9 = (false, sample_live) ∧
    try_starting_test sample_live "E1" 5 77 "h" 9 = (true, sample_live) :=
  ⟨(try_starting_test_spec sample_live "E0" 5 77 "h" 9).1 (by decide),
   (try_starting_test_spec sample_live "E1" 5 99 "h" 9).2.1 77 (by decide) (by decide)
     (by decide),
   (try_starting_test_spec sample_live "E1" 5 77 "h" 9).2.2.1 (by decide) (by decide)⟩

/-- Effects of a committed `stop_ensemble` transaction. -/
theorem stop_ensemble_spec (s : JState) (eid : String) (now : Nat) (t : JState)
    (h : stop_ensemble s eid now = some t) :
    t.index eid = false ∧
    (∀ n, t.incomplete eid n = none) ∧
    (∀ n, t.beganAt eid n = none) ∧
    (∀ n, t.hostnameOf eid n = none) ∧
    (∀ n, t.heartbeat eid n = none) ∧
    t.resultsPass = s.resultsPass ∧
    t.resultsFail = s.resultsFail ∧
    t.counts = s.counts ∧
    t.all = s.all ∧
    (s.index eid = true → t.props eid "stopped" = some (PVal.nat now)) ∧
    (s.index eid = false → t.props = s.props) := by
  rcases hall : s.all eid with _ | _
  · simp [stop_ensemble, hall] at h
  · rcases hidx : s.index eid with _ | _
    · simp [stop_ensemble, hall, hidx] at h
      subst h
      simp [upd1, clearSub, hidx]
    · rcases hsub : s.props eid "submitted" with _ | v
      · simp [stop_ensemble, hall, hidx, hsub] at h
        subst h
        simp [set_prop, upd1, upd2, clearSub, hidx]
      · rcases v with n | i | st <;> simp [stop_ensemble, hall, hidx, hsub] at h
        · subst h
          simp [set_prop, upd1, upd2, clearSub, hidx]

/-- `stop_ensemble` commits whenever the sentinel exists and, if the index
entry is still present, the stored `submitted` property parses. -/
theorem stop_ensemble_isSome (s : JState) (eid : String) (now : Nat)
    (hall : s.all eid = true)
    (hok : s.index eid = false ∨ submitted_ok s eid = true) :
    (stop_ensemble s eid now).isSome := by
  rcases hidx : s.index eid with _ | _
  · simp [stop_ensemble, hall, hidx]
  · rcases hok with hok | hok
    · rw [hok] at hidx
      exact absurd hidx (by simp)
    · unfold submitted_ok at hok
      rcases hsub : s.props eid "submitted" with _ | v
      · simp [stop_ensemble, hall, hidx, hsub]
      · rcases v with n | i | st
        · simp [stop_ensemble, hall, hidx, hsub]
        · rw [hsub] at hok
          simp at hok
        · rw [hsub] at hok
          simp at hok

/-- Effects of the committed tail of `_insert_results`. -/
theorem insert_results_finish_spec (s4 : JState) (isFail : Bool) (eid : String)
    (seed : Nat) (code : Int) (output host : String) (now : Nat) (mr d : Nat)
    (b : Bool) (s' : JState)
    (h : insert_results_finish s4 isFail eid seed code output host now mr d
          = some (b, s')) :
    b = true ∧
    s'.all = s4.all ∧
    (s4.incomplete eid seed = none → s'.incomplete eid seed = none) ∧
    (s4.beganAt eid seed = none → s'.beganAt eid seed = none) ∧
    (s4.hostnameOf eid seed = none → s'.hostnameOf eid seed = none) ∧
    (s4.heartbeat eid seed = none → s'.heartbeat eid seed = none) ∧
    ((s'.resultsPass eid).length + (s'.resultsFail eid).length
       = (s4.resultsPass eid).length + (s4.resultsFail eid).length + 1) ∧
    (s4.index eid = false → s'.index eid = false ∧ s'.props = s4.props) := by
  unfold insert_results_finish at h
  by_cases hmr : 0 < mr ∧ mr ≤ s4.counts eid "ended"
  · rw [if_pos hmr] at h
    rcases hstop : stop_ensemble s4 eid now with _ | t
    · rw [hstop] at h
      simp at h
    · rw [hstop] at h
      obtain ⟨ht1, ht2, ht3, ht4, ht5, ht6, ht7, ht8, ht9, ht10, ht11⟩ :=
        stop_ensemble_spec s4 eid now t hstop
      rcases isFail with _ | _ <;> by_cases hd : d = 0 <;>
        simp [hd, add_count, upd1, upd2] at h <;>
        obtain ⟨hb, hs⟩ := h <;> subst hb <;> subst hs <;>
        simp [add_count, upd1, upd2, ht1, ht2, ht3, ht4, ht5, ht6, ht7, ht8, ht9] <;>
        exact ⟨by omega, ht11⟩
  · rw [if_neg hmr] at h
    rcases isFail with _ | _ <;> by_cases hd : d = 0 <;>
      simp [hd, add_count, upd1, upd2] at h <;>
      obtain ⟨hb, hs⟩ := h <;> subst hb <;> subst hs <;>
      simp [add_count, upd1, upd2] <;> omega

/-- C1: `_insert_results` writes nothing and returns false when the index
entry is absent or the incomplete entry for the seed is absent; a
committed transaction inserts a result row iff the incomplete entry
existed (with the index entry present) at commit time, in which case the
incomplete entry, its sub-range (began_at/hostname) and the heartbeat key
are deleted in the same transaction. -/
theorem insert_results_spec (s : JState) (eid : String) (seed : Nat) (code : Int)
    (output host : String) (now : Nat) (ff mr d : Nat) :
    (s.index eid = false →
        insert_results s eid seed code output host now ff mr d = some (false, s)) ∧
    (s.incomplete eid seed = none →
        insert_results s eid seed code output host now ff mr d = some (false, s)) ∧
    (∀ b s', insert_results s eid seed code output host now ff mr d = some (b, s') →
        ((b = true ↔ s.index eid = true ∧ (s.incomplete eid seed).isSome) ∧
         (b = false → s' = s) ∧
         (b = true →
           s'.incomplete eid seed = none ∧ s'.beganAt eid seed = none ∧
           s'.hostnameOf eid seed = none ∧ s'.heartbeat eid seed = none ∧
           (s'.resultsPass eid).length + (s'.resultsFail eid).length
             = (s.resultsPass eid).length + (s.resultsFail eid).length + 1))) := by
  refine ⟨?_, ?_, ?_⟩
  · intro h
    simp [insert_results, h]
  · intro h
    rcases hidx : s.index eid with _ | _
    · simp [insert_results, hidx]
    · simp [insert_results, hidx, h]
  · intro b s' h
    rcases hidx : s.index eid with _ | _
    · simp [insert_results, hidx] at h
      obtain ⟨hb, hs⟩ := h
      subst hb
      subst hs
      simp [hidx]
    · rcases hinc : s.incomplete eid seed with _ | w
      · simp [insert_results, hidx, hinc] at h
        obtain ⟨hb, hs⟩ := h
        subst hb
        subst hs
        simp [hidx, hinc]
      · simp only [insert_results, hidx, hinc] at h
        rw [if_neg (by simp), if_neg (by simp)] at h
        by_cases hcode : code = 0
        · rw [if_neg (by simp [hcode])] at h
          obtain ⟨hb, ha, hi, hba, hho, hhb, hrows, hip⟩ :=
            insert_results_finish_spec _ _ _ _ _ _ _ _ _ _ _ _ h
          subst hb
          refine ⟨by simp [hidx, hinc], by simp, ?_⟩
          intro _
          refine ⟨hi (by simp [increment_count, add_count, upd2]),
                  hba (by simp [increment_count, add_count, upd2]),
                  hho (by simp [increment_count, add_count, upd2]),
                  hhb (by simp [increment_count, add_count, upd2]), ?_⟩
          simp only [increment_count, add_count] at hrows
          simpa using hrows
        · rw [if_pos hcode] at h
          split at h
          · split at h
            · exact absurd h (by simp)
            · rename_i t hstop
              obtain ⟨ht1, ht2, ht3, ht4, ht5, ht6, ht7, ht8, ht9, ht10, ht11⟩ :=
                stop_ensemble_spec _ _ _ _ hstop
              obtain ⟨hb, ha, hi, hba, hho, hhb, hrows, hip⟩ :=
                insert_results_finish_spec _ _ _ _ _ _ _ _ _ _ _ _ h
              subst hb
              refine ⟨by simp [hidx, hinc], by simp, ?_⟩
              intro _
              refine ⟨hi (ht2 seed), hba (ht3 seed), hho (ht4 seed), hhb (ht5 seed), ?_⟩
              have h6 : t.resultsPass = s.resultsPass := by
                rw [ht6]; simp [increment_count, add_count]
              have h7 : t.resultsFail = s.resultsFail := by
                rw [ht7]; simp [increment_count, add_count]
              rw [h6, h7] at hrows
              exact hrows
          · obtain ⟨hb, ha, hi, hba, hho, hhb, hrows, hip⟩ :=
              insert_results_finish_spec _ _ _ _ _ _ _ _ _ _ _ _ h
            subst hb
            refine ⟨by simp [hidx, hinc], by simp, ?_⟩
            intro _
            refine ⟨hi (by simp [increment_count, add_count, upd2]),
                    hba (by simp [increment_count, add_count, upd2]),
                    hho (by simp [increment_count, add_count, upd2]),
                    hhb (by simp [increment_count, add_count, upd2]), ?_⟩
            simp only [increment_count, add_count] at hrows
            simpa using hrows

/-- Witness for `insert_results_spec` at concrete states. -/
theorem insert_results_spec_witness :
    insert_results sample_live "E0" 5 1 "o" "h" 9 0 0 0 = some (false, sample_live) ∧
    insert_results sample_live "E1" 6 1 "o" "h" 9 0 0 0 = some (false, sample_live) ∧
    (false = true ↔ sample_live.index "E1" = true ∧
      (sample_live.incomplete "E1" 6).isSome) := by
  refine ⟨(insert_results_spec sample_live "E0" 5 1 "o" "h" 9 0 0 0).1 (by decide),
          ?_, ?_⟩
  · exact (insert_results_spec sample_live "E1" 6 1 "o" "h" 9 0 0 0).2.1 (by decide)
  · exact ((insert_results_spec sample_live "E1" 6 1 "o" "h" 9 0 0 0).2.2 false
      sample_live ((insert_results_spec sample_live "E1" 6 1 "o" "h" 9 0 0 0).2.1
        (by decide))).1

/-- The tail of `_insert_results` commits whenever the sentinel exists and
a possible internal stop can parse `submitted`. -/
theorem insert_results_finish_isSome (s4 : JState) (isFail : Bool) (eid : String)
    (seed : Nat) (code : Int) (output host : String) (now : Nat) (mr d : Nat)
    (hall : s4.all eid = true)
    (hok : s4.index eid = false ∨ submitted_ok s4 eid = true) :
    (insert_results_finish s4 isFail eid seed code output host now mr d).isSome := by
  unfold insert_results_finish
  by_cases hmr : 0 < mr ∧ mr ≤ s4.counts eid "ended"
  · rw [if_pos hmr]
    have h := stop_ensemble_isSome s4 eid now hall hok
    rcases hstop : stop_ensemble s4 eid now with _ | t
    · rw [hstop] at h
      simp at h
    · simp
  · rw [if_neg hmr]
    simp

/-- C3: when a failing result is inserted with `fail_fast = F > 0` and the
snapshot fail counter after the increment is at least `F`, the very same
transaction stops the ensemble: the index entry is removed and `stopped`
is written.  In particular the transaction taking the fail counter from
`F - 1` to `F` stops the ensemble. -/
theorem fail_fast_stop_spec (s : JState) (eid : String) (seed : Nat) (code : Int)
    (output host : String) (now : Nat) (ff mr d : Nat) (w : Nat)
    (hall : s.all eid = true) (hsubok : submitted_ok s eid = true)
    (hidx : s.index eid = true) (hinc : s.incomplete eid seed = some w)
    (hcode : code ≠ 0) (hff : 0 < ff)
    (hge : ff ≤ (s.counts eid "fail" + 1) % U64MOD) :
    ∃ s', insert_results s eid seed code output host now ff mr d = some (true, s') ∧
      s'.index eid = false ∧ s'.props eid "stopped" = some (PVal.nat now) := by
  simp only [insert_results, hidx, hinc]
  rw [if_neg (by simp), if_neg (by simp), if_pos hcode]
  rw [if_pos ⟨hff, by simpa [increment_count, add_count, upd2] using hge⟩]
  have hstopSome := stop_ensemble_isSome
    (increment_count (increment_count
      { s with
        incomplete := upd2 s.incomplete eid seed none,
        beganAt := upd2 s.beganAt eid seed none,
        hostnameOf := upd2 s.hostnameOf eid seed none,
        heartbeat := upd2 s.heartbeat eid seed none } eid "ended") eid "fail")
    eid now (by simpa [increment_count, add_count] using hall)
    (Or.inr (by simpa [submitted_ok, increment_count, add_count] using hsubok))
  rcases hstop : stop_ensemble (increment_count (increment_count
      { s with
        incomplete := upd2 s.incomplete eid seed none,
        beganAt := upd2 s.beganAt eid seed none,
        hostnameOf := upd2 s.hostnameOf eid seed none,
        heartbeat := upd2 s.heartbeat eid seed none } eid "ended") eid "fail")
      eid now with _ | t
  · rw [hstop] at hstopSome
    simp at hstopSome
  · obtain ⟨ht1, ht2, ht3, ht4, ht5, ht6, ht7, ht8, ht9, ht10, ht11⟩ :=
      stop_ensemble_spec _ _ _ _ hstop
    have htstop : t.props eid "stopped" = some (PVal.nat now) :=
      ht10 (by simp [increment_count, add_count, hidx])
    have hta : t.all eid = true := by
      rw [ht9]
      simpa [increment_count, add_count] using hall
    have hfinSome := insert_results_finish_isSome t true eid seed code output host
      now mr d hta (Or.inl ht1)
    rcases hfin : insert_results_finish t true eid seed code output host now mr d
      with _ | r
    · rw [hfin] at hfinSome
      simp at hfinSome
    · obtain ⟨b, s'⟩ := r
      obtain ⟨hb, ha, hi, hba, hho, hhb, hrows, hip⟩ :=
        insert_results_finish_spec _ _ _ _ _ _ _ _ _ _ _ _ hfin
      subst hb
      obtain ⟨hidx', hprops'⟩ := hip ht1
      refine ⟨s', ?_, hidx', by rw [hprops']; exact htstop⟩
      simpa using hfin

/-- Witness for `fail_fast_stop_spec` at a concrete state. -/
theorem fail_fast_stop_spec_witness :
    ∃ s', insert_results sample_live "E1" 5 1 "o" "h" 9 1 0 0 = some (true, s') ∧
      s'.index "E1" = false ∧ s'.props "E1" "stopped" = some (PVal.nat 9) :=
  fail_fast_stop_spec sample_live "E1" 5 1 "o" "h" 9 1 0 0 77 (by decide)
    (by decide) (by decide) (by decide) (by decide) (by decide) (by decide)

/-- Counterexample to C5 as stated: after create, stop (at 5), resume and
stop again (at 9), the second stop transaction overwrites the `stopped`
property, so `stopped` is not first-writer-wins across resume. -/
theorem stopped_overwritten_counterexample :
    (run_ops init_state c5_trace1).props "E" "stopped" = some (PVal.nat 5) ∧
    (run_ops init_state c5_trace2).props "E" "stopped" = some (PVal.nat 9) ∧
    (some (PVal.nat 9) : Option PVal) ≠ some (PVal.nat 5) := by
  refine ⟨by decide, by decide, by decide⟩

/-- `StoppedInv` only depends on `props`, `all` and `index`. -/
theorem stopped_inv_transfer (s t : JState) (hp : t.props = s.props)
    (ha : t.all = s.all) (hi : t.index = s.index) (h : StoppedInv s) :
    StoppedInv t := by
  intro e he
  rw [hp] at he
  rw [ha, hi]
  exact h e he

/-- A committed stop preserves `StoppedInv` and never overwrites an
already-written `stopped` value. -/
theorem stop_ensemble_mono (s : JState) (eid : String) (now : Nat) (t : JState)
    (hInv : StoppedInv s) (h : stop_ensemble s eid now = some t) :
    StoppedInv t ∧
    ∀ e v, s.props e "stopped" = some v → t.props e "stopped" = some v := by
  rcases hall : s.all eid with _ | _
  · simp [stop_ensemble, hall] at h
  · rcases hidx : s.index eid with _ | _
    · simp [stop_ensemble, hall, hidx] at h
      subst h
      constructor
      · intro e he
        simp only at he
        obtain ⟨h1, h2⟩ := hInv e he
        refine ⟨h1, ?_⟩
        simp [upd1, h2]
      · intro e v hv
        exact hv
    · have hnone : s.props eid "stopped" = none := by
        rcases hps : s.props eid "stopped" with _ | u
        · rfl
        · have h2 := (hInv eid (by simp [hps])).2
          rw [h2] at hidx
          exact absurd hidx (by simp)
      rcases hsub : s.props eid "submitted" with _ | u
      · simp [stop_ensemble, hall, hidx, hsub] at h
        subst h
        constructor
        · intro e he
          simp only [set_prop, upd2] at he
          by_cases heq : e = eid
          · subst heq
            refine ⟨hall, by simp [upd1]⟩
          · simp [heq] at he
            obtain ⟨h1, h2⟩ := hInv e he
            exact ⟨h1, by simp [set_prop, upd1, heq, h2]⟩
        · intro e v hv
          by_cases heq : e = eid
          · subst heq
            rw [hnone] at hv
            exact absurd hv (by simp)
          · simp [set_prop, upd2, heq]
            exact hv
      · rcases u with n | i | st <;> simp [stop_ensemble, hall, hidx, hsub] at h
        subst h
        constructor
        · intro e he
          simp only [set_prop, upd2] at he
          by_cases heq : e = eid
          · subst heq
            refine ⟨hall, by simp [upd1]⟩
          · simp [heq] at he
            obtain ⟨h1, h2⟩ := hInv e he
            exact ⟨h1, by simp [set_prop, upd1, heq, h2]⟩
        · intro e v hv
          by_cases heq : e = eid
          · subst heq
            rw [hnone] at hv
            exact absurd hv (by simp)
          · simp [set_prop, upd2, heq]
            exact hv

/-- Writing a property list without a `stopped` key never touches the
`stopped` property; `all` and `index` are untouched by property writes. -/
theorem foldl_set_prop_fields (ps : List (String × PVal)) (s : JState) (eid : String) :
    (ps.foldl (fun t kv => set_prop t eid kv.1 kv.2) s).all = s.all ∧
    (ps.foldl (fun t kv => set_prop t eid kv.1 kv.2) s).index = s.index ∧
    (ps.all (fun kv => kv.1 ≠ "stopped") = true →
      ∀ e, (ps.foldl (fun t kv => set_prop t eid kv.1 kv.2) s).props e "stopped"
        = s.props e "stopped") := by
  induction ps generalizing s with
  | nil => exact ⟨rfl, rfl, fun _ _ => rfl⟩
  | cons kv rest ih =>
      obtain ⟨ih1, ih2, ih3⟩ := ih (set_prop s eid kv.1 kv.2)
      refine ⟨by simpa [set_prop] using ih1, by simpa [set_prop] using ih2, ?_⟩
      intro hclean e
      simp only [List.all_cons, Bool.and_eq_true] at hclean
      rw [List.foldl_cons, ih3 hclean.2 e]
      simp only [set_prop, upd2]
      have : ¬(e = eid ∧ ("stopped" : String) = kv.1) := by
        rintro ⟨-, h2⟩
        rw [← h2] at hclean
        simp at hclean
      simp [this]

/-- A create with no user-supplied `stopped` property preserves
`StoppedInv` and all written `stopped` values. -/
theorem create_ensemble_mono (s : JState) (eid : String) (ps : List (String × PVal))
    (hclean : ps.all (fun kv => kv.1 ≠ "stopped") = true) (hInv : StoppedInv s) :
    StoppedInv (create_ensemble s eid ps) ∧
    ∀ e v, s.props e "stopped" = some v →
      (create_ensemble s eid ps).props e "stopped" = some v := by
  unfold create_ensemble
  rcases hall : s.all eid with _ | _
  · simp only [hall, if_false, Bool.false_eq_true]
    obtain ⟨hf1, hf2, hf3⟩ :=
      foldl_set_prop_fields ps { s with all := upd1 s.all eid true } eid
    have hprops : ∀ e,
        (ps.foldl (fun t kv => set_prop t eid kv.1 kv.2)
          { s with all := upd1 s.all eid true }).props e "stopped"
        = s.props e "stopped" := fun e => hf3 hclean e
    constructor
    · intro e he
      simp only [hprops e] at he
      obtain ⟨h1, h2⟩ := hInv e he
      have hne : e ≠ eid := by
        rintro rfl
        rw [h1] at hall
        exact absurd hall (by simp)
      constructor
      · simpa [upd1, hne, h1] using congrFun hf1 e
      · simpa [upd1, hne, h2] using congrFun hf2 e
    · intro e v hv
      simpa [hprops e] using hv
  · simp only [hall, if_true]
    exact ⟨hInv, fun e v hv => hv⟩

/-- The tail of `_insert_results` preserves `StoppedInv` and written
`stopped` values. -/
theorem insert_results_finish_mono (s4 : JState) (isFail : Bool) (eid : String)
    (seed : Nat) (code : Int) (output host : String) (now : Nat) (mr d : Nat)
    (hInv : StoppedInv s4) (b : Bool) (s' : JState)
    (h : insert_results_finish s4 isFail eid seed code output host now mr d
          = some (b, s')) :
    StoppedInv s' ∧
    ∀ e v, s4.props e "stopped" = some v → s'.props e "stopped" = some v := by
  unfold insert_results_finish at h
  by_cases hmr : 0 < mr ∧ mr ≤ s4.counts eid "ended"
  · rw [if_pos hmr] at h
    rcases hstop : stop_ensemble s4 eid now with _ | t
    · rw [hstop] at h
      simp at h
    · rw [hstop] at h
      obtain ⟨hInvT, hmono⟩ := stop_ensemble_mono s4 eid now t hInv hstop
      rcases isFail with _ | _ <;> by_cases hd : d = 0 <;>
        simp [hd, add_count, upd1, upd2] at h <;>
        obtain ⟨hb, hs⟩ := h <;> subst hb <;> subst hs <;>
        exact ⟨stopped_inv_transfer _ _ (by simp [add_count]) (by simp [add_count])
          (by simp [add_count]) hInvT,
          fun e v hv => by simpa [add_count] using hmono e v hv⟩
  · rw [if_neg hmr] at h
    rcases isFail with _ | _ <;> by_cases hd : d = 0 <;>
      simp [hd, add_count, upd1, upd2] at h <;>
      obtain ⟨hb, hs⟩ := h <;> subst hb <;> subst hs <;>
      exact ⟨stopped_inv_transfer _ _ (by simp [add_count]) (by simp [add_count])
        (by simp [add_count]) hInv, fun e v hv => by simpa [add_count] using hv⟩

/-- Counter increments preserve `StoppedInv`. -/
theorem stopped_inv_incr (s : JState) (eid c : String) (h : StoppedInv s) :
    StoppedInv (increment_count s eid c) :=
  stopped_inv_transfer s (increment_count s eid c) rfl rfl rfl h

/-- Deleting a seed's incomplete entries preserves `StoppedInv`. -/
theorem stopped_inv_clear (s : JState) (eid : String) (seed : Nat) (h : StoppedInv s) :
    StoppedInv { s with
      incomplete := upd2 s.incomplete eid seed none,
      beganAt := upd2 s.beganAt eid seed none,
      hostnameOf := upd2 s.hostnameOf eid seed none,
      heartbeat := upd2 s.heartbeat eid seed none } :=
  stopped_inv_transfer s _ rfl rfl rfl h

/-- A committed `_insert_results` preserves `StoppedInv` and written
`stopped` values. -/
theorem insert_results_mono (s : JState) (eid : String) (seed : Nat) (code : Int)
    (output host : String) (now : Nat) (ff mr d : Nat) (hInv : StoppedInv s)
    (b : Bool) (s' : JState)
    (h : insert_results s eid seed code output host now ff mr d = some (b, s')) :
    StoppedInv s' ∧
    ∀ e v, s.props e "stopped" = some v → s'.props e "stopped" = some v := by
  rcases hidx : s.index eid with _ | _
  · simp [insert_results, hidx] at h
    obtain ⟨hb, hs⟩ := h
    subst hb
    subst hs
    exact ⟨hInv, fun e v hv => hv⟩
  · rcases hinc : s.incomplete eid seed with _ | w
    · simp [insert_results, hidx, hinc] at h
      obtain ⟨hb, hs⟩ := h
      subst hb
      subst hs
      exact ⟨hInv, fun e v hv => hv⟩
    · simp only [insert_results, hidx, hinc] at h
      rw [if_neg (by simp), if_neg (by simp)] at h
      have hInvC := stopped_inv_clear s eid seed hInv
      by_cases hcode : code = 0
      · rw [if_neg (by simp [hcode])] at h
        obtain ⟨hI, hmono⟩ := insert_results_finish_mono _ _ _ _ _ _ _ _ _ _
          (stopped_inv_incr _ eid "pass" (stopped_inv_incr _ eid "ended" hInvC)) _ _ h
        exact ⟨hI, fun e v hv => hmono e v hv⟩
      · rw [if_pos hcode] at h
        split at h
        · split at h
          · exact absurd h (by simp)
          · rename_i t hstop
            obtain ⟨hIt, hmt⟩ := stop_ensemble_mono _ eid now t
              (stopped_inv_incr _ eid "fail" (stopped_inv_incr _ eid "ended" hInvC)) hstop
            obtain ⟨hI, hmono⟩ := insert_results_finish_mono _ _ _ _ _ _ _ _ _ _
              hIt _ _ h
            exact ⟨hI, fun e v hv => hmono e v (hmt e v hv)⟩
        · obtain ⟨hI, hmono⟩ := insert_results_finish_mono _ _ _ _ _ _ _ _ _ _
            (stopped_inv_incr _ eid "fail" (stopped_inv_incr _ eid "ended" hInvC)) _ _ h
          exact ⟨hI, fun e v hv => hmono e v hv⟩

/-- One non-resume, clean operation preserves `StoppedInv` and written
`stopped` values. -/
theorem jstep_mono (s : JState) (op : JOp) (hres : is_resume op = false)
    (hcl : create_props_clean op = true) (hInv : StoppedInv s) :
    StoppedInv ((jstep s op).getD s) ∧
    ∀ e v, s.props e "stopped" = some v →
      ((jstep s op).getD s).props e "stopped" = some v := by
  rcases op with ⟨eid, ps⟩ | ⟨eid, now⟩ | eid | ⟨eid, seed, code, output, host, now, ff, mr, d⟩
  · simp only [jstep, Option.getD_some]
    exact create_ensemble_mono s eid ps (by simpa [create_props_clean] using hcl) hInv
  · rcases hstop : stop_ensemble s eid now with _ | t
    · simp only [jstep, hstop, Option.getD_none]
      exact ⟨hInv, fun e v hv => hv⟩
    · simp only [jstep, hstop, Option.getD_some]
      exact stop_ensemble_mono s eid now t hInv hstop
  · simp [is_resume] at hres
  · rcases hins : insert_results s eid seed code output host now ff mr d with _ | r
    · simp only [jstep, hins, Option.map_none', Option.getD_none]
      exact ⟨hInv, fun e v hv => hv⟩
    · obtain ⟨b, s'⟩ := r
      simp only [jstep, hins, Option.map_some', Option.getD_some]
      exact insert_results_mono s eid seed code output host now ff mr d hInv b s' hins

/-- C5 (amended): over any trace of create/stop/insert_results operations
containing no resume (and whose creates carry no user-supplied `stopped`
property), once `stopped` has been written its value never changes:
first writer wins.  (With a resume in the trace this fails, see
`stopped_overwritten_counterexample`.) -/
theorem stopped_write_once (ops : List JOp)
    (hres : ∀ op ∈ ops, is_resume op = false)
    (hcl : ∀ op ∈ ops, create_props_clean op = true)
    (s : JState) (hInv : StoppedInv s) (eid : String) (v : PVal)
    (hst : s.props eid "stopped" = some v) :
    (run_ops s ops).props eid "stopped" = some v := by
  induction ops generalizing s with
  | nil => exact hst
  | cons op rest ih =>
      obtain ⟨hI, hmono⟩ := jstep_mono s op (hres op (by simp))
        (hcl op (by simp)) hInv
      exact ih (fun o ho => hres o (by simp [ho]))
        (fun o ho => hcl o (by simp [ho])) _ hI (hmono eid v hst)

/-- Witness for `stopped_write_once`: a stop replayed against an
already-stopped ensemble does not change the recorded stop time. -/
theorem stopped_write_once_witness :
    (run_ops sample_stopped [JOp.stop "E" 9]).props "E" "stopped"
      = some (PVal.nat 5) := by
  refine stopped_write_once [JOp.stop "E" 9] (by decide) (by decide)
    sample_stopped ?_ "E" (PVal.nat 5) (by decide)
  intro e he
  by_cases h : e = "E"
  · subst h
    exact ⟨by decide, by decide⟩
  · simp only [sample_stopped, init_state] at he
    simp [h] at he

/-- Unfolding: chunks of the empty byte string. -/
theorem blob_chunks_nil (offset : Nat) : blob_chunks offset [] = [] := by
  rw [blob_chunks]
  simp

/-- Unfolding: chunks of a non-empty byte string. -/
theorem blob_chunks_cons (offset : Nat) (data : Bytes) (h : data ≠ []) :
    blob_chunks offset data
      = (offset, data.take BLOB_KEY_LIMIT)
        :: blob_chunks (offset + BLOB_KEY_LIMIT) (data.drop BLOB_KEY_LIMIT) := by
  rw [blob_chunks]
  simp [h]

/-- Writing a key above every existing key appends. -/
theorem set_blob_key_append (st : BlobStore) (k : Nat) (v : Bytes)
    (h : ∀ kv ∈ st, kv.1 < k) : set_blob_key st k v = st ++ [(k, v)] := by
  induction st with
  | nil => rfl
  | cons kv1 rest ih =>
      obtain ⟨k1, v1⟩ := kv1
      have hk1 : k1 < k := h (k1, v1) (by simp)
      rw [set_blob_key]
      rw [if_neg (by omega), if_neg (by omega)]
      rw [ih (fun kv hkv => h kv (by simp [hkv]))]
      simp

/-- Every key of `blob_chunks offset data` lies in
`[offset, offset + data.length)`. -/
theorem blob_chunks_keys : ∀ (n : Nat) (data : Bytes), data.length ≤ n →
    ∀ (offset : Nat), ∀ kv ∈ blob_chunks offset data,
      offset ≤ kv.1 ∧ kv.1 < offset + data.length := by
  intro n
  induction n with
  | zero =>
      intro data hlen offset kv hkv
      have : data = [] := List.eq_nil_of_length_eq_zero (by omega)
      rw [this, blob_chunks_nil] at hkv
      simp at hkv
  | succ n ih =>
      intro data hlen offset kv hkv
      by_cases hd : data = []
      · rw [hd, blob_chunks_nil] at hkv
        simp at hkv
      · rw [blob_chunks_cons offset data hd] at hkv
        have hpos : 0 < data.length := List.length_pos.mpr hd
        rcases List.mem_cons.mp hkv with hkv | hkv
        · subst hkv
          simp
          omega
        · have hdroplen : (data.drop BLOB_KEY_LIMIT).length ≤ n := by
            simp only [List.length_drop]
            have : 0 < BLOB_KEY_LIMIT := by decide
            omega
          obtain ⟨h1, h2⟩ := ih (data.drop BLOB_KEY_LIMIT) hdroplen
            (offset + BLOB_KEY_LIMIT) kv hkv
          simp only [List.length_drop] at h2
          constructor
          · omega
          · omega

/-- The `_insert_blobpart` write loop appends exactly the
`BLOB_KEY_LIMIT`-chunks of `data[rel : m]` when all existing keys lie
below `offset + rel`. -/
theorem insert_blobpart_go_spec : ∀ (n : Nat) (st : BlobStore) (offset : Nat)
    (data : Bytes) (rel m : Nat),
    m - rel ≤ n →
    m = min BLOB_TRANSACTION_LIMIT data.length →
    BLOB_KEY_LIMIT ∣ rel →
    (∀ kv ∈ st, kv.1 < offset + rel) →
    insert_blobpart_go st offset data rel m
      = st ++ blob_chunks (offset + rel) ((data.drop rel).take (m - rel)) := by
  intro n
  induction n with
  | zero =>
      intro st offset data rel m hn hm hdvd hkeys
      have hle : m ≤ rel := by omega
      rw [insert_blobpart_go, dif_neg (by omega)]
      have : m - rel = 0 := by omega
      rw [this]
      simp [blob_chunks_nil]
  | succ n ih =>
      intro st offset data rel m hn hm hdvd hkeys
      have hk0 : 0 < BLOB_KEY_LIMIT := by decide
      by_cases hlt : rel < m
      · rw [insert_blobpart_go, dif_pos hlt]
        have hmle : m ≤ data.length := by
          rw [hm]; exact min_le_right _ _
        have happ : set_blob_key st (offset + rel)
            ((data.drop rel).take BLOB_KEY_LIMIT)
            = st ++ [(offset + rel, (data.drop rel).take BLOB_KEY_LIMIT)] :=
          set_blob_key_append st _ _ hkeys
        rw [happ]
        rw [ih (st ++ [(offset + rel, (data.drop rel).take BLOB_KEY_LIMIT)])
          offset data (rel + BLOB_KEY_LIMIT) m (by omega) hm
          (by exact Nat.dvd_add hdvd dvd_rfl)
          (by
            intro kv hkv
            rcases List.mem_append.mp hkv with hkv | hkv
            · have := hkeys kv hkv
              omega
            · simp at hkv
              rw [hkv]
              simp
              omega)]
        have hc : (data.drop rel).take (m - rel) ≠ [] := by
          have h1 : ((data.drop rel).take (m - rel)).length = m - rel := by
            rw [List.length_take, List.length_drop]
            omega
          intro hnil
          rw [hnil] at h1
          simp at h1
          omega
        rw [blob_chunks_cons _ _ hc]
        have hchunk : ((data.drop rel).take (m - rel)).take BLOB_KEY_LIMIT
            = (data.drop rel).take BLOB_KEY_LIMIT := by
          rw [List.take_take]
          by_cases h8 : BLOB_KEY_LIMIT ≤ m - rel
          · rw [Nat.min_eq_left h8]
          · rcases Nat.le_total BLOB_TRANSACTION_LIMIT data.length with hc2 | hc2
            · exfalso
              rw [Nat.min_eq_left hc2] at hm
              subst hm
              obtain ⟨a, ha⟩ := hdvd
              subst ha
              simp only [BLOB_KEY_LIMIT, BLOB_TRANSACTION_LIMIT] at hlt h8
              omega
            · rw [Nat.min_eq_right hc2] at hm
              rw [List.take_of_length_le, List.take_of_length_le]
              · rw [List.length_drop]
                omega
              · rw [List.length_drop]
                omega
        have hdrop : ((data.drop rel).take (m - rel)).drop BLOB_KEY_LIMIT
            = (data.drop (rel + BLOB_KEY_LIMIT)).take (m - (rel + BLOB_KEY_LIMIT)) := by
          rw [List.drop_take]
          rw [show ((data.drop rel).drop BLOB_KEY_LIMIT)
              = data.drop (rel + BLOB_KEY_LIMIT) from List.drop_drop _ _ _]
          rw [show m - rel - BLOB_KEY_LIMIT = m - (rel + BLOB_KEY_LIMIT) from by omega]
        rw [hchunk, hdrop]
        have hoff : offset + rel + BLOB_KEY_LIMIT = offset + (rel + BLOB_KEY_LIMIT) := by
          omega
        rw [hoff]
        simp
      · rw [insert_blobpart_go, dif_neg hlt]
        have : m - rel = 0 := by omega
        rw [this]
        simp [blob_chunks_nil]

/-- Splitting the chunk list of `data` at a multiple of the key limit. -/
theorem blob_chunks_split : ∀ (j offset : Nat) (data : Bytes),
    blob_chunks offset data
      = blob_chunks offset (data.take (BLOB_KEY_LIMIT * j))
        ++ blob_chunks (offset + (data.take (BLOB_KEY_LIMIT * j)).length)
            (data.drop (BLOB_KEY_LIMIT * j)) := by
  intro j
  induction j with
  | zero =>
      intro offset data
      simp [blob_chunks_nil]
  | succ j ih =>
      intro offset data
      have hk0 : 0 < BLOB_KEY_LIMIT := by decide
      by_cases hd : data = []
      · subst hd
        simp [blob_chunks_nil]
      · have hKsucc : BLOB_KEY_LIMIT * (j + 1) = BLOB_KEY_LIMIT + BLOB_KEY_LIMIT * j := by
          rw [Nat.mul_succ, Nat.add_comm]
        have hKle : BLOB_KEY_LIMIT ≤ BLOB_KEY_LIMIT * (j + 1) := by
          rw [hKsucc]; omega
        have hlenpos : 0 < data.length := List.length_pos.mpr hd
        rw [blob_chunks_cons offset data hd]
        have htK : data.take (BLOB_KEY_LIMIT * (j + 1)) ≠ [] := by
          intro hnil
          have hlt := congrArg List.length hnil
          rw [List.length_take] at hlt
          simp only [List.length_nil] at hlt
          omega
        rw [blob_chunks_cons offset (data.take (BLOB_KEY_LIMIT * (j + 1))) htK]
        rw [List.take_take, Nat.min_eq_left hKle]
        rw [List.drop_take]
        rw [show BLOB_KEY_LIMIT * (j + 1) - BLOB_KEY_LIMIT = BLOB_KEY_LIMIT * j from by
          rw [hKsucc]; omega]
        rw [show data.drop (BLOB_KEY_LIMIT * (j + 1))
            = (data.drop BLOB_KEY_LIMIT).drop (BLOB_KEY_LIMIT * j) from by
          rw [List.drop_drop, hKsucc]]
        rw [ih (offset + BLOB_KEY_LIMIT) (data.drop BLOB_KEY_LIMIT)]
        by_cases hlen : BLOB_KEY_LIMIT ≤ data.length
        · rw [show offset + (data.take (BLOB_KEY_LIMIT * (j + 1))).length
              = offset + BLOB_KEY_LIMIT
                + ((data.drop BLOB_KEY_LIMIT).take (BLOB_KEY_LIMIT * j)).length from by
            rw [List.length_take, List.length_take, List.length_drop, hKsucc]
            omega]
          simp
        · have hdropnil : data.drop BLOB_KEY_LIMIT = [] :=
            List.drop_eq_nil_of_le (by omega)
          rw [hdropnil]
          simp [blob_chunks_nil]

/-- `_insert_blob` appends exactly the chunk list of its data when all
existing keys lie below the starting offset. -/
theorem insert_blob_chunks : ∀ (n : Nat) (st : BlobStore) (offset : Nat)
    (data : Bytes), data.length ≤ n → (∀ kv ∈ st, kv.1 < offset) →
    insert_blob st offset data = st ++ blob_chunks offset data := by
  intro n
  induction n with
  | zero =>
      intro st offset data hn hkeys
      have hdata : data = [] := List.eq_nil_of_length_eq_zero (by omega)
      subst hdata
      rw [insert_blob]
      simp [blob_chunks_nil]
  | succ n ih =>
      intro st offset data hn hkeys
      by_cases hd : data = []
      · subst hd
        rw [insert_blob]
        simp [blob_chunks_nil]
      · rw [insert_blob, dif_neg hd]
        have hBpos : 0 < BLOB_TRANSACTION_LIMIT := by decide
        have hclenle : (data.take BLOB_TRANSACTION_LIMIT).length
            ≤ BLOB_TRANSACTION_LIMIT := by
          rw [List.length_take]; omega
        have hgo := insert_blobpart_go_spec
          (min BLOB_TRANSACTION_LIMIT (data.take BLOB_TRANSACTION_LIMIT).length)
          st offset (data.take BLOB_TRANSACTION_LIMIT) 0
          (min BLOB_TRANSACTION_LIMIT (data.take BLOB_TRANSACTION_LIMIT).length)
          (by omega) rfl (dvd_zero _) (by simpa using hkeys)
        rw [Nat.min_eq_right hclenle] at hgo
        simp only [Nat.add_zero, Nat.sub_zero, List.drop_zero, List.take_length] at hgo
        have hc : insert_blobpart st offset (data.take BLOB_TRANSACTION_LIMIT)
            = st ++ blob_chunks offset (data.take BLOB_TRANSACTION_LIMIT) := by
          unfold insert_blobpart
          rw [Nat.min_eq_right hclenle]
          exact hgo
        rw [hc]
        rw [ih (st ++ blob_chunks offset (data.take BLOB_TRANSACTION_LIMIT))
          (offset + (data.take BLOB_TRANSACTION_LIMIT).length)
          (data.drop BLOB_TRANSACTION_LIMIT)
          (by rw [List.length_drop]; omega)
          (by
            intro kv hkv
            rcases List.mem_append.mp hkv with hkv | hkv
            · have := hkeys kv hkv
              omega
            · have := blob_chunks_keys (data.take BLOB_TRANSACTION_LIMIT).length
                (data.take BLOB_TRANSACTION_LIMIT) (le_refl _) offset kv hkv
              omega)]
        have hsplit := blob_chunks_split 16 offset data
        rw [show BLOB_KEY_LIMIT * 16 = BLOB_TRANSACTION_LIMIT from by decide] at hsplit
        rw [hsplit, List.append_assoc]

/-- Range scans distribute over appended stores. -/
theorem range_scan_append (a b : BlobStore) (lo hi : Nat) :
    range_scan (a ++ b) lo hi = range_scan a lo hi ++ range_scan b lo hi :=
  List.filter_append a b

/-- A range scan sees nothing below its lower bound. -/
theorem range_scan_below (a : BlobStore) (lo hi : Nat)
    (h : ∀ kv ∈ a, kv.1 < lo) : range_scan a lo hi = [] := by
  rw [range_scan, List.filter_eq_nil_iff]
  intro kv hkv
  have := h kv hkv
  simp
  intro hle
  omega

/-- A range scan sees nothing at or above its upper bound. -/
theorem range_scan_above (a : BlobStore) (lo hi : Nat)
    (h : ∀ kv ∈ a, hi ≤ kv.1) : range_scan a lo hi = [] := by
  rw [range_scan, List.filter_eq_nil_iff]
  intro kv hkv
  have := h kv hkv
  simp
  intro hle
  omega

/-- A range scan returns everything when all keys are inside the range. -/
theorem range_scan_all (a : BlobStore) (lo hi : Nat)
    (h : ∀ kv ∈ a, lo ≤ kv.1 ∧ kv.1 < hi) : range_scan a lo hi = a := by
  rw [range_scan, List.filter_eq_self]
  intro kv hkv
  obtain ⟨h1, h2⟩ := h kv hkv
  simp [h1, h2]

/-- The `_read_blobpart` walk over a contiguous chunk list starting at its
own offset succeeds and returns exactly the chunked bytes. -/
theorem read_blobpart_aux_chunks : ∀ (n : Nat) (c : Bytes), c.length ≤ n →
    ∀ (o : Nat), ∃ l, read_blobpart_aux (blob_chunks o c) o = some l
      ∧ l.flatten = c := by
  intro n
  induction n with
  | zero =>
      intro c hlen o
      have hc : c = [] := List.eq_nil_of_length_eq_zero (by omega)
      subst hc
      rw [blob_chunks_nil]
      exact ⟨[], rfl, rfl⟩
  | succ n ih =>
      intro c hlen o
      by_cases hc : c = []
      · subst hc
        rw [blob_chunks_nil]
        exact ⟨[], rfl, rfl⟩
      · have hk0 : 0 < BLOB_KEY_LIMIT := by decide
        have hcpos : 0 < c.length := List.length_pos.mpr hc
        have htake : c.take BLOB_KEY_LIMIT ≠ [] := by
          intro hnil
          have hlt := congrArg List.length hnil
          rw [List.length_take] at hlt
          simp only [List.length_nil] at hlt
          omega
        rw [blob_chunks_cons o c hc]
        rw [read_blobpart_aux]
        rw [if_neg (by simp)]
        rw [if_neg (by simp [List.isEmpty_iff, htake])]
        by_cases hlen8 : BLOB_KEY_LIMIT ≤ c.length
        · have hlt : (c.take BLOB_KEY_LIMIT).length = BLOB_KEY_LIMIT := by
            rw [List.length_take]
            omega
          obtain ⟨l, hl, hfl⟩ := ih (c.drop BLOB_KEY_LIMIT)
            (by rw [List.length_drop]; omega) (o + BLOB_KEY_LIMIT)
          rw [hlt, hl]
          refine ⟨c.take BLOB_KEY_LIMIT :: l, rfl, ?_⟩
          rw [List.flatten_cons, hfl, List.take_append_drop]
        · have hdropnil : c.drop BLOB_KEY_LIMIT = [] :=
            List.drop_eq_nil_of_le (by omega)
          rw [hdropnil, blob_chunks_nil]
          rw [show read_blobpart_aux [] ((o + (c.take BLOB_KEY_LIMIT).length))
            = some [] from rfl]
          refine ⟨[c.take BLOB_KEY_LIMIT], rfl, ?_⟩
          simp [List.take_of_length_le (by omega : c.length ≤ BLOB_KEY_LIMIT)]

/-- Reading past the end of the stored data returns an empty part. -/
theorem read_blobpart_beyond (d : Bytes) (o : Nat) (h : d.length ≤ o) :
    read_blobpart (blob_chunks 0 d) o = some [] := by
  unfold read_blobpart
  rw [range_scan_below _ _ _ (by
    intro kv hkv
    have := blob_chunks_keys d.length d (le_refl _) 0 kv hkv
    omega)]
  rfl

/-- One `_read_blobpart` against the chunk store of `d`, at a key-aligned
offset, returns the next `BLOB_TRANSACTION_LIMIT` bytes of `d`. -/
theorem read_blobpart_chunks (d : Bytes) (o : Nat) (ho : BLOB_KEY_LIMIT ∣ o) :
    read_blobpart (blob_chunks 0 d) o
      = some ((d.drop o).take BLOB_TRANSACTION_LIMIT) := by
  by_cases hrange : d.length ≤ o
  · rw [read_blobpart_beyond d o hrange]
    rw [List.drop_eq_nil_of_le hrange]
    rfl
  · obtain ⟨j, hj⟩ := ho
    have ho16 : BLOB_KEY_LIMIT ∣ o := ⟨j, hj⟩
    unfold read_blobpart
    have hsplit := blob_chunks_split j 0 d
    rw [← hj] at hsplit
    have holen : (d.take o).length = o := by
      rw [List.length_take]
      omega
    rw [hsplit, range_scan_append]
    rw [range_scan_below _ _ _ (by
      intro kv hkv
      have := blob_chunks_keys (d.take o).length (d.take o) (le_refl _) 0 kv hkv
      omega)]
    rw [holen]
    simp only [Nat.zero_add, List.nil_append]
    have hsplit2 := blob_chunks_split 16 o (d.drop o)
    rw [show BLOB_KEY_LIMIT * 16 = BLOB_TRANSACTION_LIMIT from by decide] at hsplit2
    rw [hsplit2, range_scan_append]
    have htlen : ((d.drop o).take BLOB_TRANSACTION_LIMIT).length
        ≤ BLOB_TRANSACTION_LIMIT := by
      rw [List.length_take]
      omega
    rw [range_scan_all _ _ _ (by
      intro kv hkv
      have := blob_chunks_keys ((d.drop o).take BLOB_TRANSACTION_LIMIT).length
        ((d.drop o).take BLOB_TRANSACTION_LIMIT) (le_refl _) o kv hkv
      omega)]
    by_cases hbig : BLOB_TRANSACTION_LIMIT ≤ (d.drop o).length
    · have hlen2 : ((d.drop o).take BLOB_TRANSACTION_LIMIT).length
          = BLOB_TRANSACTION_LIMIT := by
        rw [List.length_take]
        omega
      rw [range_scan_above _ _ _ (by
        intro kv hkv
        have := blob_chunks_keys ((d.drop o).drop BLOB_TRANSACTION_LIMIT).length
          ((d.drop o).drop BLOB_TRANSACTION_LIMIT) (le_refl _)
          (o + ((d.drop o).take BLOB_TRANSACTION_LIMIT).length) kv hkv
        omega)]
      rw [List.append_nil]
      obtain ⟨l, hl, hfl⟩ := read_blobpart_aux_chunks
        ((d.drop o).take BLOB_TRANSACTION_LIMIT).length
        ((d.drop o).take BLOB_TRANSACTION_LIMIT) (le_refl _) o
      rw [hl]
      simp [hfl]
    · have hdropnil : (d.drop o).drop BLOB_TRANSACTION_LIMIT = [] :=
        List.drop_eq_nil_of_le (by omega)
      rw [hdropnil, blob_chunks_nil]
      rw [range_scan_below _ _ _ (by intro kv hkv; simp at hkv)]
      rw [List.append_nil]
      obtain ⟨l, hl, hfl⟩ := read_blobpart_aux_chunks
        ((d.drop o).take BLOB_TRANSACTION_LIMIT).length
        ((d.drop o).take BLOB_TRANSACTION_LIMIT) (le_refl _) o
      rw [hl]
      simp [hfl]

/-- The `_read_blob` loop over the chunk store of `d` returns exactly the
bytes of `d` from any key-aligned offset, given fuel exceeding the number
of bytes left. -/
theorem read_blob_loop_chunks : ∀ (fuel : Nat) (d : Bytes) (o : Nat),
    BLOB_KEY_LIMIT ∣ o → (d.drop o).length < fuel →
    read_blob_loop fuel (blob_chunks 0 d) o = some (d.drop o) := by
  intro fuel
  induction fuel with
  | zero =>
      intro d o hdvd hfuel
      exact absurd hfuel (by omega)
  | succ fuel ih =>
      intro d o hdvd hfuel
      rw [read_blob_loop]
      rw [read_blobpart_chunks d o hdvd]
      by_cases hrem : d.drop o = []
      · rw [hrem]
        simp
      · have hBpos : 0 < BLOB_TRANSACTION_LIMIT := by decide
        have hrempos : 0 < (d.drop o).length := List.length_pos.mpr hrem
        have htake_ne : (d.drop o).take BLOB_TRANSACTION_LIMIT ≠ [] := by
          intro hnil
          have hlt := congrArg List.length hnil
          rw [List.length_take] at hlt
          simp only [List.length_nil] at hlt
          omega
        dsimp only
        rw [if_neg (by simp [List.isEmpty_iff, htake_ne])]
        by_cases hbig : BLOB_TRANSACTION_LIMIT ≤ (d.drop o).length
        · have hlen : ((d.drop o).take BLOB_TRANSACTION_LIMIT).length
              = BLOB_TRANSACTION_LIMIT := by
            rw [List.length_take]
            omega
          have hrec := ih d (o + BLOB_TRANSACTION_LIMIT)
            (Nat.dvd_add hdvd (by decide))
            (by
              rw [List.length_drop] at hfuel hbig ⊢
              omega)
          rw [hlen, hrec]
          dsimp only
          rw [show d.drop (o + BLOB_TRANSACTION_LIMIT)
              = (d.drop o).drop BLOB_TRANSACTION_LIMIT from by rw [List.drop_drop]]
          rw [List.take_append_drop]
        · have hlast : (d.drop o).take BLOB_TRANSACTION_LIMIT = d.drop o :=
            List.take_of_length_le (by omega)
          rw [hlast]
          obtain ⟨fuel1, rfl⟩ : ∃ f1, fuel = f1 + 1 := ⟨fuel - 1, by omega⟩
          rw [read_blob_loop]
          rw [read_blobpart_beyond d (o + (d.drop o).length)
            (by rw [List.length_drop]; omega)]
          simp

/-- C4: blob round-trip.  Writing any byte sequence through the blob
writer into an empty subspace (8 KiB chunks keyed by byte offset, at most
128 KiB per transaction) and reading it back through the blob reader
(range scans from offset 0, stopping at the first empty read) yields the
identical byte sequence. -/
theorem blob_roundtrip (data : Bytes) :
    read_blob_loop (data.length + 1) (insert_blob [] 0 data) 0 = some data := by
  rw [insert_blob_chunks data.length [] 0 data (le_refl _) (by simp)]
  simp only [List.nil_append]
  have h := read_blob_loop_chunks (data.length + 1) data 0 (dvd_zero _) (by simp)
  simpa using h

/-- Counterexample to C6 as stated: at `ended = max_runs` the code takes
the formula branch (yielding a zero timedelta), not `"stopping"` (the
code tests `max_runs < ended`, not `ended ≥ max_runs`); and a record with
neither `runtime` nor `submitted` yields `"old_version"` even when
`ended` is unset, not `"not_started"`. -/
theorem remaining_boundary_counterexample :
    derive_remaining 100 (some 0) none none (some 5) (some 5)
      = some (Remaining.time 0) ∧
    derive_remaining 100 none none none none (some 5)
      = some Remaining.oldVersion ∧
    some (Remaining.time 0) ≠ some Remaining.stopping ∧
    some Remaining.oldVersion ≠ some Remaining.notStarted := by
  refine ⟨?_, by norm_num [derive_remaining], by simp, by simp⟩
  norm_num [derive_remaining]

/-- C6 (amended): the `remaining` derivation of the listing read path:
"0" when `stopped` is set; "not_started" when `ended` is unset (given a
determinable runtime, i.e. `runtime` or `submitted` present); "no_max"
when `max_runs` is unset; "stopping" when `ended` exceeds `max_runs`
(strictly); otherwise (including `ended = max_runs`) the value
`runtime × (max_runs − ended) / ended`; and "old_version" when neither
`runtime` nor `submitted` is available. -/
theorem remaining_derivation_spec (now : ℚ) (submitted runtime0 stopped : Option ℚ)
    (ended maxRuns : Option Int) :
    (stopped.isSome →
        derive_remaining now submitted runtime0 stopped ended maxRuns
          = some Remaining.zero) ∧
    (stopped = none → (runtime0.isSome ∨ submitted.isSome) → ended = none →
        derive_remaining now submitted runtime0 stopped ended maxRuns
          = some Remaining.notStarted) ∧
    (stopped = none → (runtime0.isSome ∨ submitted.isSome) → ended.isSome →
        maxRuns = none →
        derive_remaining now submitted runtime0 stopped ended maxRuns
          = some Remaining.noMax) ∧
    (∀ jd mr : Int, stopped = none → (runtime0.isSome ∨ submitted.isSome) →
        ended = some jd → maxRuns = some mr → mr < jd →
        derive_remaining now submitted runtime0 stopped ended maxRuns
          = some Remaining.stopping) ∧
    (∀ jd mr : Int, stopped = none → ended = some jd → maxRuns = some mr →
        jd ≤ mr → jd ≠ 0 →
        ((∀ rt, runtime0 = some rt →
            derive_remaining now submitted runtime0 stopped ended maxRuns
              = some (Remaining.time (rt * ((mr : ℚ) - (jd : ℚ)) / (jd : ℚ)))) ∧
         (∀ sub, runtime0 = none → submitted = some sub →
            derive_remaining now submitted runtime0 stopped ended maxRuns
              = some (Remaining.time
                  ((now - sub) * ((mr : ℚ) - (jd : ℚ)) / (jd : ℚ)))))) ∧
    (stopped = none → runtime0 = none → submitted = none →
        derive_remaining now submitted runtime0 stopped ended maxRuns
          = some Remaining.oldVersion) := by
  refine ⟨?_, ?_, ?_, ?_, ?_, ?_⟩
  · intro h
    obtain ⟨t, ht⟩ := Option.isSome_iff_exists.mp h
    subst ht
    simp [derive_remaining]
  · intro hst hrt hend
    subst hst
    subst hend
    rcases hr : runtime0 with _ | rt
    · rcases hs : submitted with _ | sub
      · rw [hr, hs] at hrt
        simp at hrt
      · simp [derive_remaining, hr, hs]
    · simp [derive_remaining, hr]
  · intro hst hrt hend hmr
    subst hst
    subst hmr
    obtain ⟨jd, hjd⟩ := Option.isSome_iff_exists.mp hend
    subst hjd
    rcases hr : runtime0 with _ | rt
    · rcases hs : submitted with _ | sub
      · rw [hr, hs] at hrt
        simp at hrt
      · simp [derive_remaining, hr, hs]
    · simp [derive_remaining, hr]
  · intro jd mr hst hrt hend hmr hlt
    subst hst
    subst hend
    subst hmr
    rcases hr : runtime0 with _ | rt
    · rcases hs : submitted with _ | sub
      · rw [hr, hs] at hrt
        simp at hrt
      · simp [derive_remaining, hr, hs, hlt]
    · simp [derive_remaining, hr, hlt]
  · intro jd mr hst hend hmr hle hne
    subst hst
    subst hend
    subst hmr
    have hnlt : ¬ mr < jd := not_lt.mpr hle
    constructor
    · intro rt hr
      subst hr
      simp [derive_remaining, hnlt, hne]
    · intro sub hr hs
      subst hr
      subst hs
      simp [derive_remaining, hnlt, hne]
  · intro hst hr hs
    subst hst
    subst hr
    subst hs
    simp [derive_remaining]

/-- Witness for `remaining_derivation_spec` at concrete records. -/
theorem remaining_derivation_spec_witness :
    derive_remaining 100 (some 0) none (some 7) (some 5) (some 5)
      = some Remaining.zero ∧
    derive_remaining 100 (some 0) none none none none
      = some Remaining.notStarted ∧
    derive_remaining 100 (some 0) none none (some 5) none
      = some Remaining.noMax ∧
    derive_remaining 100 (some 0) none none (some 6) (some 5)
      = some Remaining.stopping ∧
    derive_remaining 100 (some 0) none none (some 5) (some 10)
      = some (Remaining.time
          ((100 - 0) * (((10 : Int) : ℚ) - ((5 : Int) : ℚ)) / ((5 : Int) : ℚ))) ∧
    derive_remaining 100 none none none (some 5) (some 10)
      = some Remaining.oldVersion := by
  refine ⟨(remaining_derivation_spec 100 (some 0) none (some 7) (some 5) (some 5)).1
      (by simp),
    (remaining_derivation_spec 100 (some 0) none none none none).2.1 rfl
      (by simp) rfl,
    (remaining_derivation_spec 100 (some 0) none none (some 5) none).2.2.1 rfl
      (by simp) (by simp) rfl,
    (remaining_derivation_spec 100 (some 0) none none (some 6) (some 5)).2.2.2.1
      6 5 rfl (by simp) rfl rfl (by norm_num),
    ((remaining_derivation_spec 100 (some 0) none none (some 5) (some 10)).2.2.2.2.1
      5 10 rfl rfl rfl (by norm_num) (by norm_num)).2 0 rfl rfl,
    (remaining_derivation_spec 100 none none none (some 5) (some 10)).2.2.2.2.2
      rfl rfl rfl⟩

/-- Counterexample to C7 as stated: a `value_in_blob` marker with
`BlobVersion` "3" raises the unknown-version error inside the try-block,
but the except-clause yields the record's own marker text — the record is
yielded, not skipped. -/
theorem tail_unknown_blob_version_counterexample :
    tail_resolve_message (fun _ => "BLOB") (fun _ => "BLOB") c7_msg "MARKER"
      = Except.error ("Unknown BlobVersion " ++ "3") ∧
    tail_yield_for_message (fun _ => "BLOB") (fun _ => "BLOB") c7_msg "MARKER"
      = ["MARKER"] ∧
    (["MARKER"] : List String) ≠ [] := by
  refine ⟨?_, ?_, by simp⟩
  · simp [tail_resolve_message, c7_msg, lookupAttr]
  · simp [tail_yield_for_message, tail_resolve_message, c7_msg, lookupAttr]

/-- C7 (amended): on a `value_in_blob` record whose `BlobVersion` is
neither "1" nor "2", the tail stream's try-block raises the
unknown-version error and the stream surfaces it as a parse error,
yielding the record's raw marker text instead of any blob content (the
record is not skipped). -/
theorem tail_unknown_blob_version_spec (largeV1 largeV2 : String → String)
    (msg : List (String × String)) (newItem bv : String)
    (h1 : lookupAttr msg "Message" = some "value_in_blob")
    (h2 : (lookupAttr msg "BlobKey").isSome)
    (h3 : lookupAttr msg "BlobVersion" = some bv)
    (h4 : bv ≠ "1") (h5 : bv ≠ "2") :
    tail_resolve_message largeV1 largeV2 msg newItem
        = Except.error ("Unknown BlobVersion " ++ bv) ∧
    tail_yield_for_message largeV1 largeV2 msg newItem = [newItem] := by
  obtain ⟨key, hkey⟩ := Option.isSome_iff_exists.mp h2
  have hres : tail_resolve_message largeV1 largeV2 msg newItem
      = Except.error ("Unknown BlobVersion " ++ bv) := by
    rw [tail_resolve_message, if_pos h1, hkey]
    simp only [h3, Option.getD_some]
    rw [if_neg h4, if_neg h5]
  exact ⟨hres, by rw [tail_yield_for_message, hres]⟩

/-- Witness for `tail_unknown_blob_version_spec`. -/
theorem tail_unknown_blob_version_spec_witness :
    tail_resolve_message (fun _ => "A") (fun _ => "B") c7_msg "ITEM"
        = Except.error ("Unknown BlobVersion " ++ "3") ∧
    tail_yield_for_message (fun _ => "A") (fun _ => "B") c7_msg "ITEM" = ["ITEM"] :=
  tail_unknown_blob_version_spec (fun _ => "A") (fun _ => "B") c7_msg "ITEM" "3"
    (by simp [lookupAttr, c7_msg]) (by simp [lookupAttr, c7_msg])
    (by simp [lookupAttr, c7_msg]) (by simp) (by simp)

/-- Counterexample to C8 as stated: with growth_rate 50, 50 current
agents, and enough load to make the available-cpu count −10, the desired
delta is −10 and |−10| exceeds 100/50 = 2, so the claim requires scaling
to −5; the code compares the signed delta against int(100/50) and returns
−10 unscaled. -/
theorem agents_damping_counterexample :
    determine_agents_needed 50 50 100 0 0 10 = -10 ∧
    claim_agents_delta 50 50 100 0 0 10 = -5 ∧
    (-10 : Int) ≠ -5 := by
  refine ⟨?_, ?_, by decide⟩
  · norm_num [determine_agents_needed, pyInt, pyRound]
  · norm_num [claim_agents_delta, pyInt, pyRound]

/-- C8 (amended): the pool manager's delta is
`Δ = min(max_agents − current, avail)` when `avail > 0` and
`max(−current, avail)` otherwise, with
`avail = total_cpus − ⌊loadavg_1m + 0.8⌋ − free_cpus`; the damping scales
to `round(Δ × growth_rate/100)` exactly when `Δ > 100/growth_rate` — the
signed delta, not its absolute value, so negative deltas are never
scaled. -/
theorem agents_damping_spec (gr : ℚ) (cur maxA free total : Int) (load : ℚ)
    (hgr : 0 < gr) (hload : 0 ≤ load) (delta : Int)
    (hdelta : delta = if 0 < total - ⌊load + 4 / 5⌋ - free
        then min (maxA - cur) (total - ⌊load + 4 / 5⌋ - free)
        else max (-cur) (total - ⌊load + 4 / 5⌋ - free)) :
    ((delta : ℚ) ≤ 100 / gr →
        determine_agents_needed gr cur maxA free total load = delta) ∧
    (¬ (delta : ℚ) ≤ 100 / gr →
        determine_agents_needed gr cur maxA free total load
          = pyRound ((delta : ℚ) * gr / 100)) := by
  have h1 : pyInt (load + 4 / 5) = ⌊load + 4 / 5⌋ := if_pos (by linarith)
  have h2 : pyInt (100 / gr) = ⌊100 / gr⌋ :=
    if_pos (div_nonneg (by norm_num) (le_of_lt hgr))
  constructor
  · intro hc
    simp only [determine_agents_needed, h1, h2, ← hdelta]
    rw [if_pos (Int.le_floor.mpr hc)]
  · intro hc
    simp only [determine_agents_needed, h1, h2, ← hdelta]
    rw [if_neg (fun hcon => hc (Int.le_floor.mp hcon))]

/-- Witness for `agents_damping_spec`. -/
theorem agents_damping_spec_witness :
    determine_agents_needed 50 50 100 0 0 10 = -10 :=
  (agents_damping_spec 50 50 100 0 0 10 (by norm_num) (by norm_num) (-10)
    (by norm_num)).1 (by norm_num)

/-- `check_archive_path` rejects exactly the names whose normalised path
leaves the extraction root. -/
theorem check_archive_path_false_iff (name : String) :
    check_archive_path name = false
      ↔ ((normpath name).startsWith "/" = true
          ∨ (normpath name).startsWith ".." = true) := by
  unfold check_archive_path
  rcases h1 : (normpath name).startsWith "/" with _ | _ <;>
    rcases h2 : (normpath name).startsWith ".." with _ | _ <;> simp [h1, h2]

/-- C9: `check_archive_path(name)` returns False exactly when
`os.path.normpath(name)` starts with "/" or with ".."; and
`ensure_state`'s extraction applies `extractall` exactly to the members
passing this check: a member is extracted iff its normalised path starts
with neither "/" nor "..". -/
theorem check_archive_path_spec :
    (∀ name : String, check_archive_path name = false
        ↔ ((normpath name).startsWith "/" = true
            ∨ (normpath name).startsWith ".." = true)) ∧
    (∀ (members : List String) (m : String),
        m ∈ extracted_members members
          ↔ m ∈ members
            ∧ ¬((normpath m).startsWith "/" = true
                ∨ (normpath m).startsWith ".." = true)) := by
  constructor
  · exact check_archive_path_false_iff
  · intro members m
    rw [extracted_members, List.mem_filter]
    constructor
    · rintro ⟨hm, hcheck⟩
      refine ⟨hm, ?_⟩
      intro hdis
      rw [(check_archive_path_false_iff m).mpr hdis] at hcheck
      exact absurd hcheck (by simp)
    · rintro ⟨hm, hneg⟩
      refine ⟨hm, ?_⟩
      rcases hch : check_archive_path m with _ | _
      · exact absurd ((check_archive_path_false_iff m).mp hch) hneg
      · rfl

/-- Mean durations are at least 1 and in particular positive. -/
theorem mean_duration_pos (duration ended : Nat) : 0 < mean_duration duration ended := by
  unfold mean_duration
  by_cases h : ended = 0
  · simp [h]
  · rw [if_neg h]
    have : (1 : ℚ) ≤ max 1 ((duration : ℚ) / (ended : ℚ)) := le_max_left _ _
    linarith

/-- Priorities are strictly positive (0 or unset defaults to 100/100). -/
theorem ensemble_priority_pos (priority : Nat) : 0 < ensemble_priority priority := by
  unfold ensemble_priority
  by_cases h : priority = 0
  · rw [if_pos h]
    norm_num
  · rw [if_neg h]
    have : (0 : ℚ) < (priority : ℚ) := by
      have : 0 < priority := Nat.pos_of_ne_zero h
      exact_mod_cast this
    positivity

/-- The accumulating walk selects some entry whenever the drawn value
lies below the running total plus the remaining weights. -/
theorem pick_ensemble_isSome : ∀ (bs : List (String × ℚ)) (soFar u : ℚ),
    bs ≠ [] → u < soFar + (bs.map Prod.snd).sum →
    (pick_ensemble bs soFar u).isSome := by
  intro bs
  induction bs with
  | nil => intro soFar u hne _; exact absurd rfl hne
  | cons b rest ih =>
      intro soFar u _ hsum
      obtain ⟨e, w⟩ := b
      rw [pick_ensemble]
      by_cases hc : u ≤ soFar + w
      · rw [if_pos hc]
        rfl
      · rw [if_neg hc]
        rcases hrest : rest with _ | ⟨b2, rest2⟩
        · exfalso
          rw [hrest] at hsum
          simp at hsum
          exact hc (le_of_lt hsum)
        · rw [← hrest]
          refine ih (soFar + w) u (by rw [hrest]; simp) ?_
          rw [List.map_cons, List.sum_cons] at hsum
          linarith

/-- C10: every weight of the agent's weighted ensemble pick is strictly
positive, and for every drawn value `u` with `0 ≤ u <` the total weight
the accumulating walk selects some ensemble: `chosen_ensemble` is never
`None` on a non-empty candidate list. -/
theorem chosen_ensemble_isSome (counters : String → Nat × Nat × Nat)
    (ensembles : List String) (hne : ensembles ≠ []) (u : ℚ) (hu0 : 0 ≤ u)
    (husum : u < ((make_buckets counters ensembles).map Prod.snd).sum) :
    (∀ b ∈ make_buckets counters ensembles, 0 < b.2) ∧
    (pick_ensemble (make_buckets counters ensembles) 0 u).isSome := by
  constructor
  · intro b hb
    rw [make_buckets, List.mem_map] at hb
    obtain ⟨e, _, he⟩ := hb
    rw [← he]
    exact div_pos (ensemble_priority_pos _) (mean_duration_pos _ _)
  · refine pick_ensemble_isSome _ 0 u ?_ (by linarith)
    rw [make_buckets]
    simp [hne]

/-- Witness for `chosen_ensemble_isSome` on a single fresh ensemble. -/
theorem chosen_ensemble_isSome_witness :
    (∀ b ∈ make_buckets (fun _ => (0, 0, 0)) ["E"], 0 < b.2) ∧
    (pick_ensemble (make_buckets (fun _ => (0, 0, 0)) ["E"]) 0 0).isSome :=
  chosen_ensemble_isSome (fun _ => (0, 0, 0)) ["E"] (by simp) 0 (by norm_num)
    (by norm_num [make_buckets, ensemble_priority, mean_duration])
